import Mathlib

/-!
Shallow embedding of the queuectl job-queue engine (storage.py, utils.py,
job_manager.py, dlq_manager.py) and verification of the spec's claims.

Timestamps: the code stores ISO-8601 strings and compares them after parsing
with `parse_timestamp`, which can fail.  We model a stored timestamp as `TS`:
either a value that parses to an instant (a rational number on a global
timeline) or a string that does not parse.  Clock readings produced by
`get_current_timestamp` always parse, so clock inputs of the operations are
plain rationals.
-/

namespace Queuectl

/-- Job states, from the `JobManager.STATE_*` constants. -/
inductive JState where
  | pending
  | processing
  | completed
  | failed
  | dead
deriving DecidableEq, Repr

/-- A stored timestamp string: either it parses to an instant `t`, or it is
an unparseable raw string. -/
inductive TS where
  | good (t : ℚ)
  | bad (raw : String)
deriving DecidableEq, Repr

/-- utils.parse_timestamp: returns the parsed instant or raises (modelled as
`none`). -/
def parse_timestamp : TS → Option ℚ
  | .good t => some t
  | .bad _ => none

/-- A job record, with the fields `JobManager.enqueue_job` creates.
`last_error = none` models the key being absent from the dict. -/
structure Job where
  id : String
  command : String
  state : JState
  attempts : Nat
  max_retries : Int
  created_at : ℚ
  updated_at : ℚ
  next_retry_at : Option TS
  last_error : Option String
deriving DecidableEq, Repr

/-- A partial-fields dict passed to `Storage.update_job`; `none` means the
key is absent from the dict.  Callers never pass `id`, `command`,
`created_at` or `max_retries`, so those keys are omitted. -/
structure JobUpdate where
  state : Option JState
  attempts : Option Nat
  next_retry_at : Option (Option TS)
  updated_at : Option ℚ
  last_error : Option (Option String)
deriving DecidableEq, Repr

/-- Python `dict.update` restricted to the keys of `JobUpdate`, followed by
storage.py line 131 (`updated_at = updates.get("updated_at", old)`), which
is a no-op after the merge. -/
def applyUpdate (j : Job) (u : JobUpdate) : Job :=
  { j with
    state := u.state.getD j.state
    attempts := u.attempts.getD j.attempts
    next_retry_at := u.next_retry_at.getD j.next_retry_at
    updated_at := u.updated_at.getD j.updated_at
    last_error := u.last_error.getD j.last_error }

/-- The persisted document: active jobs list and DLQ list, in insertion
order (the `config` record is passed separately as `Config`). -/
structure Store where
  jobs : List Job
  dlq : List Job
deriving DecidableEq, Repr

/-- Error taxonomy: the code raises `ValueError` with distinct messages;
the constructors mirror the spec's taxonomy. -/
inductive QErr where
  | duplicateID (id : String)
  | notFound (id : String)
  | invalidSpec (msg : String)
deriving DecidableEq, Repr

/-- Resolved configuration values as read through
`config.get("max_retries", 3)` / `config.get("backoff_base", 2.0)`. -/
structure Config where
  max_retries : Int
  backoff_base : ℚ
deriving DecidableEq, Repr

/-- Input to `enqueue_job` (the parsed JSON job dict). -/
structure JobSpec where
  id : Option String
  command : String
  max_retries : Option Int
deriving DecidableEq, Repr

/-! ### Storage operations (storage.py) -/

/-- Storage.get_job: first job whose id matches, else None. -/
def getJob (s : Store) (id : String) : Option Job :=
  s.jobs.find? (fun j => j.id == id)

/-- Storage.add_job: raises if some active job already has the id,
otherwise appends. -/
def add_job (s : Store) (j : Job) : Except QErr Store :=
  if s.jobs.any (fun j0 => j0.id == j.id) then
    .error (.duplicateID j.id)
  else
    .ok { s with jobs := s.jobs ++ [j] }

/-- Helper for Storage.update_job: update the first job in the list whose
id matches; `none` when no job matches. -/
def updateFirstJob (id : String) (u : JobUpdate) : List Job → Option (List Job)
  | [] => none
  | j :: rest =>
    if j.id == id then some (applyUpdate j u :: rest)
    else (updateFirstJob id u rest).map (fun l => j :: l)

/-- Storage.update_job: merge the given fields into the first job with the
id and persist; raises NotFound if absent (before any write). -/
def update_job (s : Store) (id : String) (u : JobUpdate) : Except QErr Store :=
  match updateFirstJob id u s.jobs with
  | some js => .ok { s with jobs := js }
  | none => .error (.notFound id)

/-- Storage.delete_job: removes every job with the id (list comprehension). -/
def delete_job (s : Store) (id : String) : Store :=
  { s with jobs := s.jobs.filter (fun j => j.id != id) }

/-- Storage.add_to_dlq: appends to the DLQ list. -/
def add_to_dlq (s : Store) (j : Job) : Store :=
  { s with dlq := s.dlq ++ [j] }

/-- Helper for Storage.remove_from_dlq: pop the first element with the id. -/
def popFirst (id : String) : List Job → Option (Job × List Job)
  | [] => none
  | d :: rest =>
    if d.id == id then some (d, rest)
    else (popFirst id rest).map (fun p => (p.1, d :: p.2))

/-- Storage.remove_from_dlq: removes and returns the first DLQ entry with
the id; `none` if absent. -/
def remove_from_dlq (s : Store) (id : String) : Option (Job × Store) :=
  (popFirst id s.dlq).map (fun p => (p.1, { s with dlq := p.2 }))

/-- First DLQ entry with the id (how `dlq list` output exposes an id). -/
def getDlqJob (s : Store) (id : String) : Option Job :=
  s.dlq.find? (fun d => d.id == id)

/-! ### Utilities (utils.py) -/

/-- utils.calculate_backoff_delay: `base ** attempts`. -/
def calculate_backoff_delay (attempts : Nat) (base : ℚ) : ℚ :=
  base ^ attempts

/-- Python truthiness of the optional error string (`if error:`). -/
def strTruthy : Option String → Bool
  | none => false
  | some s => !(s == "")

/-- utils.validate_job_data on a parsed spec: the command must be non-empty
after stripping — `command.strip()` is falsy exactly when every character
is whitespace — and max_retries (when given) a non-negative integer. -/
def validate_job_data (spec : JobSpec) : Bool × Option String :=
  if spec.command.data.all (fun c => c.isWhitespace) then
    (false, some "Command must be a non-empty string")
  else
    match spec.max_retries with
    | some m =>
      if m < 0 then (false, some "max_retries must be a non-negative integer")
      else (true, none)
    | none => (true, none)

/-- `job_data.get("id") or generate_job_id()`: Python `or` falls through on
a falsy (absent or empty) id. -/
def resolveId (sid : Option String) (freshId : String) : String :=
  match sid with
  | some s => if s == "" then freshId else s
  | none => freshId

/-! ### Job lifecycle (job_manager.py) -/

/-- JobManager.enqueue_job: validate, resolve defaults and id, create the
record with state=pending and attempts=0, and persist via Storage.add_job.
`freshId` stands for the `generate_job_id()` result, `now` for
`get_current_timestamp()`. -/
def enqueue_job (cfg : Config) (spec : JobSpec) (freshId : String) (now : ℚ)
    (s : Store) : Except QErr (Job × Store) :=
  match validate_job_data spec with
  | (false, e) => .error (.invalidSpec (e.getD ""))
  | (true, _) =>
    let mr := spec.max_retries.getD cfg.max_retries
    let jid := resolveId spec.id freshId
    let job : Job :=
      { id := jid, command := spec.command, state := .pending, attempts := 0,
        max_retries := mr, created_at := now, updated_at := now,
        next_retry_at := none, last_error := none }
    (add_job s job).map (fun s' => (job, s'))

/-- Readiness test of the claim loop in `JobManager.get_pending_job`: the
job must be pending, and if `next_retry_at` is set and parses to a future
instant the job is skipped; a parse failure is swallowed (`except: pass`)
and the job proceeds. -/
def jobIsReady (now : ℚ) (j : Job) : Bool :=
  j.state == .pending &&
    (match j.next_retry_at with
     | none => true
     | some ts =>
       match parse_timestamp ts with
       | none => true
       | some t => !(now < t))

/-- The partial-fields dict `get_pending_job` writes to claim a job. -/
def claimUpdate (now : ℚ) : JobUpdate :=
  ⟨some .processing, none, none, some now, none⟩

/-- The scan loop of `JobManager.get_pending_job` over the snapshot list
`l`, acting on store `s`: the first ready job is claimed via
Storage.update_job and re-read; an update failure falls through to the
next candidate (`continue`). -/
def gpjAux (s : Store) (now : ℚ) : List Job → Option Job × Store
  | [] => (none, s)
  | j :: rest =>
    if jobIsReady now j then
      match update_job s j.id (claimUpdate now) with
      | .ok s' => (getJob s' j.id, s')
      | .error _ => gpjAux s now rest
    else gpjAux s now rest

/-- JobManager.get_pending_job: scan the current snapshot of the active
jobs for the first ready pending job, mark it processing, return it. -/
def get_pending_job (s : Store) (now : ℚ) : Option Job × Store :=
  gpjAux s now s.jobs

/-- First ready job of a snapshot (the candidate the scan loop picks). -/
def findReadyJob (now : ℚ) (l : List Job) : Option Job :=
  l.find? (jobIsReady now)

/-- JobManager.mark_job_completed. -/
def mark_job_completed (s : Store) (id : String) (now : ℚ) :
    Except QErr Store :=
  update_job s id ⟨some .completed, none, none, some now, none⟩

/-- JobManager.mark_job_failed: load the job (NotFound if absent),
increment attempts; if attempts exceed max_retries move the record —
marked dead, with `last_error` set when the error message is truthy — from
the active list to the DLQ; otherwise schedule a retry
`calculate_backoff_delay attempts base` in the future and reset to
pending via Storage.update_job. -/
def mark_job_failed (cfg : Config) (s : Store) (id : String)
    (err : Option String) (now : ℚ) : Except QErr Store :=
  match getJob s id with
  | none => .error (.notFound id)
  | some job =>
    let attempts := job.attempts + 1
    if (attempts : ℤ) > job.max_retries then
      let deadJob : Job :=
        { job with
          state := .dead
          attempts := attempts
          updated_at := now
          last_error := if strTruthy err then err else job.last_error }
      .ok (add_to_dlq (delete_job s id) deadJob)
    else
      let delay := calculate_backoff_delay attempts cfg.backoff_base
      update_job s id
        ⟨some .pending, some attempts, some (some (.good (now + delay))),
         some now, some err⟩

/-! ### DLQ manager (dlq_manager.py) -/

/-- DLQManager.retry_job: remove the entry from the DLQ (NotFound if
absent), reset it to a fresh pending job, and add it back to the active
list.  The DLQ removal is persisted before `add_job` runs, so when
`add_job` raises the returned store has the entry removed but nothing
re-inserted. -/
def retry_job (s : Store) (id : String) (now : ℚ) :
    Except QErr Job × Store :=
  match remove_from_dlq s id with
  | none => (.error (.notFound id), s)
  | some (job, s1) =>
    let j' : Job :=
      { job with
        state := .pending
        attempts := 0
        next_retry_at := none
        updated_at := now
        last_error := none }
    match add_job s1 j' with
    | .ok s2 => (.ok j', s2)
    | .error e => (.error e, s1)

/-! ### Engine transition system

One step per engine operation, as the system drives them: the CLI calls
enqueue and dlq-retry, workers call claim and then report completion or
failure of the job they hold. -/

/-- One engine operation with its inputs. -/
inductive Op where
  | enqueue (spec : JobSpec) (freshId : String)
  | claim
  | complete (id : String)
  | fail (id : String) (err : Option String)
  | retry (id : String)
deriving DecidableEq, Repr

/-- Effect of one operation on the store (errors leave the store as the
underlying code leaves it: unchanged, except that a failing dlq-retry has
already persisted the DLQ removal). -/
def runOp (cfg : Config) (now : ℚ) (s : Store) : Op → Store
  | .enqueue spec freshId =>
    match enqueue_job cfg spec freshId now s with
    | .ok p => p.2
    | .error _ => s
  | .claim => (get_pending_job s now).2
  | .complete id =>
    match mark_job_completed s id now with
    | .ok s' => s'
    | .error _ => s
  | .fail id err =>
    match mark_job_failed cfg s id err now with
    | .ok s' => s'
    | .error _ => s
  | .retry id => (retry_job s id now).2

/-- State of an id in the active list. -/
def activeState (s : Store) (id : String) : Option JState :=
  (getJob s id).map Job.state

/-- State of an id, looking at the active list first and the DLQ second. -/
def totalState (s : Store) (id : String) : Option JState :=
  match getJob s id with
  | some j => some j.state
  | none => (getDlqJob s id).map Job.state

/-- Store well-formedness: active ids are distinct, DLQ ids are distinct,
and the two id sets are disjoint. -/
def storeInv (s : Store) : Prop :=
  (s.jobs.map Job.id).Nodup ∧ (s.dlq.map Job.id).Nodup ∧
    ∀ j ∈ s.jobs, ∀ d ∈ s.dlq, j.id ≠ d.id

/-- Every DLQ entry is dead (how every reachable DLQ looks). -/
def dlqAllDead (s : Store) : Prop :=
  ∀ d ∈ s.dlq, d.state = .dead

/-- Guard under which the worker loop invokes completion/failure reports:
only on the job it has claimed, hence one that is processing.  Enqueue is
additionally guarded by the resolved id being absent from the DLQ (the
code checks only the active list). -/
def opOK (s : Store) : Op → Prop
  | .enqueue spec freshId => ∀ d ∈ s.dlq, d.id ≠ resolveId spec.id freshId
  | .claim => True
  | .complete id => ∃ j, getJob s id = some j ∧ j.state = .processing
  | .fail id _ => ∃ j, getJob s id = some j ∧ j.state = .processing
  | .retry _ => True

/-- Side condition of the amended disjointness claim: enqueue must not
reuse an id sitting in the DLQ; every other operation is unconditional. -/
def enqGuard (s : Store) : Op → Prop
  | .enqueue spec freshId => ∀ d ∈ s.dlq, d.id ≠ resolveId spec.id freshId
  | _ => True

/-! ### Two concurrent claim callers

Each `Storage` method takes the store lock for its own duration only, so a
`get_pending_job` call decomposes into the atomic snapshot read and the
atomic claim write.  `raceTwoClaims` runs the schedule read-A, read-B,
write-A, write-B of two callers over the same store. -/

/-- The write half of one claim: update the chosen job to processing and
re-read it, as `get_pending_job` does once it has picked a candidate. -/
def claimWrite (s : Store) (now : ℚ) : Option String → Option Job × Store
  | none => (none, s)
  | some id =>
    match update_job s id (claimUpdate now) with
    | .ok s' => (getJob s' id, s')
    | .error _ => (none, s)

/-- Both callers snapshot the same store, then write one after the other. -/
def raceTwoClaims (s0 : Store) (now : ℚ) : Option Job × Option Job :=
  let cA := (findReadyJob now s0.jobs).map Job.id
  let cB := (findReadyJob now s0.jobs).map Job.id
  let rA := claimWrite s0 now cA
  let rB := claimWrite rA.2 now cB
  (rA.1, rB.1)

/-! ### Lemma kit: list search and first-match surgery -/

theorem find?_eq_some_split {p : Job → Bool} {l : List Job} {a : Job}
    (h : l.find? p = some a) :
    ∃ l1 l2, l = l1 ++ a :: l2 ∧ p a = true ∧ ∀ x ∈ l1, p x = false := by
  induction l with
  | nil => simp at h
  | cons b l ih =>
    by_cases hb : p b = true
    · rw [List.find?_cons_of_pos _ hb] at h
      injection h with h
      subst h
      exact ⟨[], l, rfl, hb, by simp⟩
    · rw [List.find?_cons_of_neg _ hb] at h
      rcases ih h with ⟨l1, l2, heq, hpa, hl1⟩
      refine ⟨b :: l1, l2, by simp [heq], hpa, ?_⟩
      intro x hx
      rcases List.mem_cons.1 hx with h' | h'
      · subst h'; simpa using hb
      · exact hl1 x h'

theorem find?_middle_of_none {p : Job → Bool} {l1 l2 : List Job} {a : Job}
    (h1 : ∀ x ∈ l1, p x = false) (ha : p a = true) :
    (l1 ++ a :: l2).find? p = some a := by
  rw [List.find?_append, List.find?_eq_none.2 (by intro x hx; simp [h1 x hx]),
    Option.none_or, List.find?_cons_of_pos _ ha]

theorem find?_middle_congr {p : Job → Bool} {l1 l2 : List Job} {a b : Job}
    (ha : p a = false) (hb : p b = false) :
    (l1 ++ a :: l2).find? p = (l1 ++ b :: l2).find? p := by
  rw [List.find?_append, List.find?_append,
    List.find?_cons_of_neg _ (by simp [ha]), List.find?_cons_of_neg _ (by simp [hb])]

/-- `applyUpdate` never changes the id. -/
theorem applyUpdate_id (j : Job) (u : JobUpdate) : (applyUpdate j u).id = j.id := rfl

theorem updateFirstJob_eq_none {id : String} {u : JobUpdate} {l : List Job} :
    updateFirstJob id u l = none ↔ ∀ x ∈ l, x.id ≠ id := by
  induction l with
  | nil => simp [updateFirstJob]
  | cons j l ih =>
    by_cases hj : j.id = id
    · simp [updateFirstJob, hj]
    · have hc : (j.id == id) = false := beq_eq_false_iff_ne.2 hj
      simp [updateFirstJob, hc, Option.map_eq_none', ih, hj]

theorem updateFirstJob_some_split {id : String} {u : JobUpdate} {l l' : List Job}
    (h : updateFirstJob id u l = some l') :
    ∃ l1 j l2, l = l1 ++ j :: l2 ∧ l' = l1 ++ applyUpdate j u :: l2 ∧
      j.id = id ∧ ∀ x ∈ l1, x.id ≠ id := by
  induction l generalizing l' with
  | nil => simp [updateFirstJob] at h
  | cons b l ih =>
    simp only [updateFirstJob] at h
    by_cases hb : b.id = id
    · have hc : (b.id == id) = true := by simp [hb]
      rw [if_pos hc] at h
      injection h with h
      exact ⟨[], b, l, rfl, by simp [← h], hb, by simp⟩
    · have hc : ¬ ((b.id == id) = true) := by simp [hb]
      rw [if_neg hc] at h
      rcases Option.map_eq_some'.1 h with ⟨l'', hrec, hcons⟩
      rcases ih hrec with ⟨l1, j, l2, heq, heq', hj, hl1⟩
      refine ⟨b :: l1, j, l2, by simp [heq], by simp [← hcons, heq'], hj, ?_⟩
      intro x hx
      rcases List.mem_cons.1 hx with h' | h'
      · subst h'; exact hb
      · exact hl1 x h'

theorem updateFirstJob_of_split {id : String} {u : JobUpdate} {l1 l2 : List Job}
    {j : Job} (hj : j.id = id) (hl1 : ∀ x ∈ l1, x.id ≠ id) :
    updateFirstJob id u (l1 ++ j :: l2) = some (l1 ++ applyUpdate j u :: l2) := by
  induction l1 with
  | nil => simp [updateFirstJob, hj]
  | cons c l1 ih =>
    have hc : (c.id == id) = false := beq_eq_false_iff_ne.2 (hl1 c (by simp))
    have ih' := ih (fun x hx => hl1 x (by simp [hx]))
    simp [updateFirstJob, hc, ih']

/-- Updating the first match leaves the id sequence unchanged. -/
theorem updateFirstJob_map_id {id : String} {u : JobUpdate} {l l' : List Job}
    (h : updateFirstJob id u l = some l') : l'.map Job.id = l.map Job.id := by
  rcases updateFirstJob_some_split h with ⟨l1, j, l2, heq, heq', _, _⟩
  subst heq heq'
  simp [applyUpdate_id]

theorem popFirst_eq_none {id : String} {l : List Job} :
    popFirst id l = none ↔ ∀ x ∈ l, x.id ≠ id := by
  induction l with
  | nil => simp [popFirst]
  | cons d l ih =>
    by_cases hd : d.id = id
    · simp [popFirst, hd]
    · have hc : (d.id == id) = false := beq_eq_false_iff_ne.2 hd
      simp [popFirst, hc, Option.map_eq_none', ih, hd]

theorem popFirst_some_split {id : String} {l : List Job} {d : Job}
    {rest : List Job} (h : popFirst id l = some (d, rest)) :
    ∃ l1 l2, l = l1 ++ d :: l2 ∧ rest = l1 ++ l2 ∧ d.id = id ∧
      ∀ x ∈ l1, x.id ≠ id := by
  induction l generalizing rest with
  | nil => simp [popFirst] at h
  | cons b l ih =>
    simp only [popFirst] at h
    by_cases hb : b.id = id
    · have hc : (b.id == id) = true := by simp [hb]
      rw [if_pos hc] at h
      injection h with h
      injection h with h1 h2
      subst h1
      exact ⟨[], l, rfl, by simp [← h2], hb, by simp⟩
    · have hc : ¬ ((b.id == id) = true) := by simp [hb]
      rw [if_neg hc] at h
      rcases Option.map_eq_some'.1 h with ⟨⟨d'', rest''⟩, hrec, hpair⟩
      injection hpair with h1 h2
      subst h1
      rcases ih hrec with ⟨l1, l2, heq, heq', hd, hl1⟩
      refine ⟨b :: l1, l2, by simp [heq], by simp [← h2, heq'], hd, ?_⟩
      intro x hx
      rcases List.mem_cons.1 hx with h' | h'
      · subst h'; exact hb
      · exact hl1 x h'

theorem popFirst_of_split {id : String} {l1 l2 : List Job} {d : Job}
    (hd : d.id = id) (hl1 : ∀ x ∈ l1, x.id ≠ id) :
    popFirst id (l1 ++ d :: l2) = some (d, l1 ++ l2) := by
  induction l1 with
  | nil => simp [popFirst, hd]
  | cons c l1 ih =>
    have hc : (c.id == id) = false := beq_eq_false_iff_ne.2 (hl1 c (by simp))
    have ih' := ih (fun x hx => hl1 x (by simp [hx]))
    simp [popFirst, hc, ih']

/-- In an id-distinct list, searching for a member's id finds that member. -/
theorem find?_of_mem_nodup {l : List Job} {j : Job}
    (hnd : (l.map Job.id).Nodup) (hj : j ∈ l) :
    l.find? (fun x => x.id == j.id) = some j := by
  induction l with
  | nil => simp at hj
  | cons b l ih =>
    rcases List.mem_cons.1 hj with h | h
    · subst h
      exact List.find?_cons_of_pos _ (by simp)
    · have hb : b.id ≠ j.id := by
        intro hc
        have : b.id ∈ l.map Job.id := hc ▸ List.mem_map_of_mem Job.id h
        exact (List.nodup_cons.1 hnd).1 this
      rw [List.find?_cons_of_neg _ (by simp [hb])]
      exact ih (List.nodup_cons.1 hnd).2 h

/-- A member's id always makes `updateFirstJob` succeed. -/
theorem updateFirstJob_isSome_of_mem {l : List Job} {j : Job} {u : JobUpdate}
    (hj : j ∈ l) : ∃ l', updateFirstJob j.id u l = some l' := by
  cases h : updateFirstJob j.id u l with
  | some l' => exact ⟨l', rfl⟩
  | none => exact absurd rfl (updateFirstJob_eq_none.1 h j hj)

/-! ### Lemma kit: the claim scan loop -/

theorem gpjAux_of_find?_none {s : Store} {now : ℚ} {l : List Job}
    (h : l.find? (jobIsReady now) = none) : gpjAux s now l = (none, s) := by
  induction l with
  | nil => rfl
  | cons j l ih =>
    have hj : jobIsReady now j = false := by
      have := List.find?_eq_none.1 h j (by simp)
      simpa using this
    have hrest : l.find? (jobIsReady now) = none := by
      rw [List.find?_cons_of_neg _ (by simp [hj])] at h
      exact h
    simp [gpjAux, hj, ih hrest]

theorem gpjAux_of_find?_some {s : Store} {now : ℚ} {l : List Job} {j0 : Job}
    (hl : ∀ j ∈ l, j ∈ s.jobs) (h : l.find? (jobIsReady now) = some j0) :
    ∃ s', update_job s j0.id (claimUpdate now) = .ok s' ∧
      gpjAux s now l = (getJob s' j0.id, s') := by
  induction l with
  | nil => simp at h
  | cons j l ih =>
    by_cases hj : jobIsReady now j = true
    · rw [List.find?_cons_of_pos _ hj] at h
      injection h with h
      subst h
      rcases @updateFirstJob_isSome_of_mem s.jobs j (claimUpdate now) (hl j (by simp)) with ⟨l', hup⟩
      refine ⟨{ s with jobs := l' }, ?_, ?_⟩
      · simp [update_job, hup]
      · simp [gpjAux, hj, update_job, hup]
    · rw [List.find?_cons_of_neg _ hj] at h
      rcases ih (fun x hx => hl x (by simp [hx])) h with ⟨s', h1, h2⟩
      refine ⟨s', h1, ?_⟩
      simp only [gpjAux, if_neg hj]
      exact h2

/-! ### Claim C9: the backoff policy -/

/-- C9: the backoff policy is the pure function `base ^ attempt`; for
base 2 and attempts 1, 2, 3 it yields exactly 2, 4, 8; and for any base
greater than 1 the delay is strictly increasing in the attempt count. -/
theorem backoff_policy_spec :
    (∀ (a : ℕ) (b : ℚ), calculate_backoff_delay a b = b ^ a) ∧
    calculate_backoff_delay 1 2 = 2 ∧
    calculate_backoff_delay 2 2 = 4 ∧
    calculate_backoff_delay 3 2 = 8 ∧
    ∀ b : ℚ, 1 < b → ∀ a : ℕ,
      calculate_backoff_delay a b < calculate_backoff_delay (a + 1) b := by
  refine ⟨fun a b => rfl, by norm_num [calculate_backoff_delay],
    by norm_num [calculate_backoff_delay], by norm_num [calculate_backoff_delay],
    fun b hb a => ?_⟩
  show b ^ a < b ^ (a + 1)
  calc b ^ a = b ^ a * 1 := (mul_one _).symm
    _ < b ^ a * b := by
        exact mul_lt_mul_of_pos_left hb (pow_pos (lt_trans zero_lt_one hb) a)
    _ = b ^ (a + 1) := (pow_succ b a).symm

/-- Witness for C9 at base 2, attempt 1. -/
theorem backoff_policy_spec_witness :
    (1 : ℚ) < 2 ∧ calculate_backoff_delay 1 2 < calculate_backoff_delay 2 2 :=
  ⟨by norm_num, backoff_policy_spec.2.2.2.2 2 (by norm_num) 1⟩

/-! ### Claim C10: unparseable `next_retry_at` -/

/-- C10: a pending job whose stored `next_retry_at` does not parse is
neither an error nor skipped by the claim operation: the parse failure is
swallowed and the job counts as immediately ready, so when it heads the
active list `get_pending_job` claims it and returns it as processing. -/
theorem bad_timestamp_treated_eligible (j : Job) (raw : String) (now : ℚ)
    (rest dlq : List Job) (hs : j.state = .pending)
    (hts : j.next_retry_at = some (.bad raw)) :
    jobIsReady now j = true ∧
    (get_pending_job ⟨j :: rest, dlq⟩ now).1 =
      some { j with state := .processing, updated_at := now } := by
  have hr : jobIsReady now j = true := by
    simp [jobIsReady, hs, hts, parse_timestamp]
  refine ⟨hr, ?_⟩
  simp [get_pending_job, gpjAux, hr, update_job, updateFirstJob, getJob,
    claimUpdate, applyUpdate]

/-- Witness for C10 at a concrete one-job store. -/
theorem bad_timestamp_treated_eligible_witness :
    jobIsReady 1 ⟨"b", "c", .pending, 0, 3, 0, 0, some (.bad "oops"), none⟩ = true ∧
    (get_pending_job
        ⟨[⟨"b", "c", .pending, 0, 3, 0, 0, some (.bad "oops"), none⟩], []⟩ 1).1 =
      some ⟨"b", "c", .processing, 0, 3, 0, 1, some (.bad "oops"), none⟩ :=
  bad_timestamp_treated_eligible _ "oops" 1 [] [] rfl rfl

/-! ### Claim C1: the claim operation is not exactly-once under concurrency -/

/-- C1 fails on the code: starting from a store holding exactly one
eligible job, the legal schedule in which two `get_pending_job` callers
both take their snapshot before either writes makes both callers receive
that one job — the second caller's `update_job` does not re-check the
state, so it succeeds as well.  This contradicts the claimed exactly-once
delivery (and the docstring "Atomically fetch a pending job"). -/
theorem concurrent_claim_duplicate_delivery :
    raceTwoClaims ⟨[⟨"a", "cmd", .pending, 0, 3, 0, 0, none, none⟩], []⟩ 5 =
      (some ⟨"a", "cmd", .processing, 0, 3, 0, 5, none, none⟩,
       some ⟨"a", "cmd", .processing, 0, 3, 0, 5, none, none⟩) := by
  rfl

/-! ### Claim C7: duplicate ids are rejected at enqueue -/

/-- C7: `add_job` rejects an id already present in the active list with
DuplicateID (raising before any write, so the store is untouched), and
otherwise appends the job, after which exactly one active job carries that
id; `enqueue_job` propagates the DuplicateID rejection. -/
theorem duplicate_id_rejected (s : Store) (j : Job) :
    ((∃ j0 ∈ s.jobs, j0.id = j.id) →
      add_job s j = .error (.duplicateID j.id)) ∧
    ((∀ j0 ∈ s.jobs, j0.id ≠ j.id) →
      add_job s j = .ok ⟨s.jobs ++ [j], s.dlq⟩ ∧
      ((s.jobs ++ [j]).filter (fun x => x.id == j.id)).length = 1) ∧
    (∀ cfg spec freshId now,
      (∃ j0 ∈ s.jobs, j0.id = resolveId spec.id freshId) →
      (validate_job_data spec).1 = true →
      ∃ msg, enqueue_job cfg spec freshId now s = .error (.duplicateID msg) ∧
        msg = resolveId spec.id freshId) := by
  refine ⟨?_, ?_, ?_⟩
  · rintro ⟨j0, hj0, hid⟩
    have hc : s.jobs.any (fun j0 => j0.id == j.id) = true :=
      List.any_eq_true.2 ⟨j0, hj0, by simp [hid]⟩
    simp [add_job, hc]
  · intro h
    have hc : s.jobs.any (fun j0 => j0.id == j.id) = false :=
      List.any_eq_false.2 (fun x hx => by simp [h x hx])
    have hnil : s.jobs.filter (fun x => x.id == j.id) = [] :=
      List.filter_eq_nil_iff.2 (fun x hx => by simp [h x hx])
    constructor
    · simp [add_job, hc]
    · simp [List.filter_append, hnil]
  · intro cfg spec freshId now hdup hv
    rcases hval : validate_job_data spec with ⟨b, e⟩
    rw [hval] at hv
    dsimp at hv
    subst hv
    rcases hdup with ⟨j0, hj0, hid⟩
    have hc : s.jobs.any
        (fun x => x.id == resolveId spec.id freshId) = true :=
      List.any_eq_true.2 ⟨j0, hj0, by simp [hid]⟩
    refine ⟨resolveId spec.id freshId, ?_, rfl⟩
    simp [enqueue_job, hval, add_job, hc, Except.map]

/-- Witness for C7 at a one-job store. -/
theorem duplicate_id_rejected_witness :
    (∃ j0 ∈ ([⟨"a", "c", .pending, 0, 3, 0, 0, none, none⟩] : List Job),
      j0.id = (⟨"a", "d", .pending, 0, 3, 1, 1, none, none⟩ : Job).id) ∧
    add_job ⟨[⟨"a", "c", .pending, 0, 3, 0, 0, none, none⟩], []⟩
        ⟨"a", "d", .pending, 0, 3, 1, 1, none, none⟩ =
      .error (.duplicateID "a") :=
  ⟨⟨⟨"a", "c", .pending, 0, 3, 0, 0, none, none⟩, by simp, rfl⟩,
    (duplicate_id_rejected ⟨[⟨"a", "c", .pending, 0, 3, 0, 0, none, none⟩], []⟩
      ⟨"a", "d", .pending, 0, 3, 1, 1, none, none⟩).1
      ⟨⟨"a", "c", .pending, 0, 3, 0, 0, none, none⟩, by simp, rfl⟩⟩

/-! ### Claim C5: what `update_job` changes and what it leaves alone -/

/-- C5 fails on the code as stated: `Storage.update_job` does not refresh
`updated_at` on its own — line 131 of storage.py reads the new value out of
the `updates` dict and falls back to the old one, so an update whose
fields do not include `updated_at` leaves the timestamp exactly as it was.
Concretely, merging only `state := completed` into a job whose
`updated_at` is 0 yields a job whose `updated_at` is still 0. -/
theorem update_job_no_refresh_counterexample :
    update_job ⟨[⟨"a", "c", .pending, 0, 3, 0, 0, none, none⟩], []⟩ "a"
        ⟨some .completed, none, none, none, none⟩ =
      .ok ⟨[⟨"a", "c", .completed, 0, 3, 0, 0, none, none⟩], []⟩ := by
  rfl

/-- Amended C5: `update_job` merges exactly the supplied fields into the
first job carrying the id — a field changes to the supplied value iff it
was supplied, `updated_at` included — leaves every other job and the DLQ
untouched, and fails with NotFound (before any write) when the id is
absent. -/
theorem update_job_merges_exactly (s : Store) (id : String) (u : JobUpdate) :
    (getJob s id = none → update_job s id u = .error (.notFound id)) ∧
    (∀ j, getJob s id = some j →
      ∃ l1 l2, s.jobs = l1 ++ j :: l2 ∧ (∀ x ∈ l1, x.id ≠ id) ∧
        update_job s id u = .ok ⟨l1 ++ applyUpdate j u :: l2, s.dlq⟩ ∧
        getJob ⟨l1 ++ applyUpdate j u :: l2, s.dlq⟩ id = some (applyUpdate j u) ∧
        (applyUpdate j u).id = j.id ∧
        (applyUpdate j u).command = j.command ∧
        (applyUpdate j u).created_at = j.created_at ∧
        (applyUpdate j u).max_retries = j.max_retries ∧
        (u.state = none → (applyUpdate j u).state = j.state) ∧
        (∀ v, u.state = some v → (applyUpdate j u).state = v) ∧
        (u.attempts = none → (applyUpdate j u).attempts = j.attempts) ∧
        (∀ v, u.attempts = some v → (applyUpdate j u).attempts = v) ∧
        (u.next_retry_at = none →
          (applyUpdate j u).next_retry_at = j.next_retry_at) ∧
        (∀ v, u.next_retry_at = some v → (applyUpdate j u).next_retry_at = v) ∧
        (u.updated_at = none → (applyUpdate j u).updated_at = j.updated_at) ∧
        (∀ v, u.updated_at = some v → (applyUpdate j u).updated_at = v) ∧
        (u.last_error = none → (applyUpdate j u).last_error = j.last_error) ∧
        (∀ v, u.last_error = some v → (applyUpdate j u).last_error = v)) := by
  constructor
  · intro h
    have hn : updateFirstJob id u s.jobs = none :=
      updateFirstJob_eq_none.2 (fun x hx => by
        have := List.find?_eq_none.1 h x hx
        simpa using this)
    simp [update_job, hn]
  · intro j hj
    rcases find?_eq_some_split hj with ⟨l1, l2, heq, hpj, hl1⟩
    have hjid : j.id = id := by simpa using hpj
    have hl1' : ∀ x ∈ l1, x.id ≠ id := fun x hx => by simpa using hl1 x hx
    have hup : updateFirstJob id u s.jobs =
        some (l1 ++ applyUpdate j u :: l2) := by
      rw [heq]; exact updateFirstJob_of_split hjid hl1'
    refine ⟨l1, l2, heq, hl1', by simp [update_job, hup], ?_, rfl, rfl, rfl, rfl,
      ?_, ?_, ?_, ?_, ?_, ?_, ?_, ?_, ?_, ?_⟩
    · show List.find? _ _ = _
      exact find?_middle_of_none (fun x hx => by simp [hl1' x hx])
        (by simp [applyUpdate_id, hjid])
    all_goals
      first
      | (intro h; simp [applyUpdate, h])
      | (intro v h; simp [applyUpdate, h])

/-- Witness for the amended C5. -/
theorem update_job_merges_exactly_witness :
    getJob ⟨[⟨"a", "c", .pending, 0, 3, 0, 0, none, none⟩], []⟩ "a" =
      some ⟨"a", "c", .pending, 0, 3, 0, 0, none, none⟩ ∧
    update_job ⟨[⟨"a", "c", .pending, 0, 3, 0, 0, none, none⟩], []⟩ "a"
        ⟨some .completed, none, none, some 9, none⟩ =
      .ok ⟨[⟨"a", "c", .completed, 0, 3, 0, 9, none, none⟩], []⟩ := by
  refine ⟨rfl, ?_⟩
  rcases (update_job_merges_exactly
      ⟨[⟨"a", "c", .pending, 0, 3, 0, 0, none, none⟩], []⟩ "a"
      ⟨some .completed, none, none, some 9, none⟩).2 _ rfl with
    ⟨l1, l2, heq, _, hok, _⟩
  have hl1 : l1 = [] := by
    cases l1 with
    | nil => rfl
    | cons x xs => simp at heq
  subst hl1
  simp only [List.nil_append] at heq hok
  injection heq with h1 h2
  subst h2
  rw [hok]
  rfl

/-! ### Claim C2: the failure-handling transition -/

/-- A found id makes `update_job` succeed, updating exactly the first
matching job. -/
theorem update_job_found {s : Store} {id : String} {j : Job} (u : JobUpdate)
    (hj : getJob s id = some j) :
    ∃ l1 l2, s.jobs = l1 ++ j :: l2 ∧ (∀ x ∈ l1, x.id ≠ id) ∧ j.id = id ∧
      update_job s id u = .ok ⟨l1 ++ applyUpdate j u :: l2, s.dlq⟩ ∧
      getJob ⟨l1 ++ applyUpdate j u :: l2, s.dlq⟩ id =
        some (applyUpdate j u) := by
  rcases find?_eq_some_split hj with ⟨l1, l2, heq, hpj, hl1⟩
  have hjid : j.id = id := by simpa using hpj
  have hl1' : ∀ x ∈ l1, x.id ≠ id := fun x hx => by simpa using hl1 x hx
  have hup : updateFirstJob id u s.jobs = some (l1 ++ applyUpdate j u :: l2) := by
    rw [heq]; exact updateFirstJob_of_split hjid hl1'
  refine ⟨l1, l2, heq, hl1', hjid, by simp [update_job, hup], ?_⟩
  show List.find? _ _ = _
  exact find?_middle_of_none (fun x hx => by simp [hl1' x hx])
    (by simp [applyUpdate_id, hjid])

/-- No job of the post-deletion list carries the deleted id. -/
theorem getJob_after_filter (l : List Job) (dlq : List Job) (id : String) :
    getJob ⟨l.filter (fun x => x.id != id), dlq⟩ id = none := by
  apply List.find?_eq_none.2
  intro x hx
  have := (List.mem_filter.1 hx).2
  simp only [bne_iff_ne, ne_eq] at this
  simp [this]

/-- Postcondition of `mark_job_failed` asserted by C2: NotFound on an
absent id; otherwise attempts grow by exactly one and either the record
moves dead into the DLQ (attempts exceeded max_retries) or it returns to
pending with a strictly future `next_retry_at` computed by the backoff
policy, the error recorded, everything persisted through the store. -/
def markFailedPost (cfg : Config) (s : Store) (id : String)
    (err : Option String) (now : ℚ) : Prop :=
  (getJob s id = none →
    mark_job_failed cfg s id err now = .error (.notFound id)) ∧
  ∀ j, getJob s id = some j →
    ((((j.attempts + 1 : ℕ) : ℤ) > j.max_retries →
      ∃ dj s', mark_job_failed cfg s id err now = .ok s' ∧
        s'.jobs = s.jobs.filter (fun x => x.id != id) ∧
        s'.dlq = s.dlq ++ [dj] ∧
        dj.state = .dead ∧ dj.attempts = j.attempts + 1 ∧
        dj.last_error = err ∧ dj.id = j.id ∧ dj.command = j.command ∧
        dj.max_retries = j.max_retries ∧
        getJob s' id = none) ∧
     (¬ (((j.attempts + 1 : ℕ) : ℤ) > j.max_retries) →
      ∃ j' s', mark_job_failed cfg s id err now = .ok s' ∧
        s'.dlq = s.dlq ∧ getJob s' id = some j' ∧
        j'.state = .pending ∧ j'.attempts = j.attempts + 1 ∧
        j'.next_retry_at = some (.good (now +
          calculate_backoff_delay (j.attempts + 1) cfg.backoff_base)) ∧
        now < now + calculate_backoff_delay (j.attempts + 1) cfg.backoff_base ∧
        j'.last_error = err ∧ j'.id = j.id ∧ j'.command = j.command ∧
        j'.max_retries = j.max_retries))

/-- C2: `mark_job_failed` behaves as the spec's markFailed step demands,
for a positive backoff base and a non-empty error message. -/
theorem mark_job_failed_spec (cfg : Config) (s : Store) (id : String)
    (err : Option String) (now : ℚ)
    (hbase : 0 < cfg.backoff_base) (herr : strTruthy err = true) :
    markFailedPost cfg s id err now := by
  constructor
  · intro h
    simp [mark_job_failed, h]
  · intro j hj
    constructor
    · intro hgt
      refine ⟨{ j with
          state := .dead
          attempts := j.attempts + 1
          updated_at := now
          last_error := if strTruthy err then err else j.last_error },
        add_to_dlq (delete_job s id)
          { j with
            state := .dead
            attempts := j.attempts + 1
            updated_at := now
            last_error := if strTruthy err then err else j.last_error },
        ?_, rfl, rfl, rfl, rfl, by simp [herr], rfl, rfl, rfl, ?_⟩
      · simp only [mark_job_failed, hj]
        rw [if_pos hgt]
      · exact getJob_after_filter s.jobs _ id
    · intro hle
      rcases update_job_found
          ⟨some .pending, some (j.attempts + 1),
            some (some (.good (now +
              calculate_backoff_delay (j.attempts + 1) cfg.backoff_base))),
            some now, some err⟩ hj with ⟨l1, l2, heq, hl1, hjid, hok, hget⟩
      refine ⟨_, _, ?_, ?_, hget, ?_, ?_, ?_, ?_, ?_, ?_, ?_, ?_⟩
      · simp only [mark_job_failed, hj]
        rw [if_neg hle]
        exact hok
      · rfl
      · rfl
      · rfl
      · rfl
      · have : 0 < calculate_backoff_delay (j.attempts + 1) cfg.backoff_base :=
          pow_pos hbase _
        linarith
      · rfl
      · rfl
      · rfl
      · rfl

/-- Witness for C2: one processing job, max_retries 2, base 2, failing at
time 4 with message "e1". -/
theorem mark_job_failed_spec_witness :
    0 < (Config.mk 3 2).backoff_base ∧ strTruthy (some "e1") = true ∧
    markFailedPost ⟨3, 2⟩ ⟨[⟨"a", "c", .processing, 0, 2, 0, 0, none, none⟩], []⟩
      "a" (some "e1") 4 :=
  ⟨by norm_num, rfl,
    mark_job_failed_spec ⟨3, 2⟩
      ⟨[⟨"a", "c", .processing, 0, 2, 0, 0, none, none⟩], []⟩
      "a" (some "e1") 4 (by norm_num) rfl⟩

/-! ### Claim C4: what the claim operation selects -/

/-- Modelled from the claim's words, not from the source: C4's eligibility
predicate — pending, with `next_retry_at` unset or parsing to an instant
that has passed.  Compared against the source's `jobIsReady` below. -/
def eligibleAsClaimed (now : ℚ) (j : Job) : Prop :=
  j.state = .pending ∧
    (j.next_retry_at = none ∨
      ∃ t, j.next_retry_at = some (.good t) ∧ t ≤ now)

/-- C4 fails on the code as stated: a pending job whose `next_retry_at`
is an unparseable string is not eligible in the claim's sense (it is
neither unset nor a past instant), yet `get_pending_job` returns it
instead of returning none. -/
theorem claim_selects_ineligible_counterexample :
    ¬ eligibleAsClaimed 1
        ⟨"b", "c", .pending, 0, 3, 0, 0, some (.bad "oops"), none⟩ ∧
    (get_pending_job
        ⟨[⟨"b", "c", .pending, 0, 3, 0, 0, some (.bad "oops"), none⟩], []⟩ 1).1 =
      some ⟨"b", "c", .processing, 0, 3, 0, 1, some (.bad "oops"), none⟩ := by
  constructor
  · rintro ⟨-, h | ⟨t, ht, -⟩⟩
    · simp at h
    · simp at ht
  · rfl

/-- In a list whose mapped ids are distinct, elements before a split point
have a different id than the split element. -/
theorem nodup_split_ne {l1 l2 : List Job} {j : Job}
    (hnd : (((l1 ++ j :: l2).map Job.id)).Nodup) :
    ∀ x ∈ l1, x.id ≠ j.id := by
  intro x hx hc
  rw [List.map_append] at hnd
  rcases List.nodup_append.1 hnd with ⟨-, -, hdisj⟩
  exact hdisj (List.mem_map_of_mem Job.id hx) (by simp [hc])

/-- Postcondition of `get_pending_job` in the amended C4: if no stored job
passes the source's readiness test the operation returns none and leaves
the store unchanged; otherwise it picks the first ready job in insertion
order — every earlier job fails the readiness test — which is pending
with no parsed-future `next_retry_at`, marks exactly that job processing,
and returns it. -/
def claimPost (s : Store) (now : ℚ) : Prop :=
  (s.jobs.find? (jobIsReady now) = none →
    (∀ j ∈ s.jobs, jobIsReady now j = false) ∧
    get_pending_job s now = (none, s)) ∧
  (∀ j0, s.jobs.find? (jobIsReady now) = some j0 →
    ∃ l1 l2, s.jobs = l1 ++ j0 :: l2 ∧
      (∀ x ∈ l1, jobIsReady now x = false) ∧
      jobIsReady now j0 = true ∧ j0.state = .pending ∧
      (∀ t, j0.next_retry_at = some (.good t) → ¬ now < t) ∧
      get_pending_job s now =
        (some { j0 with state := .processing, updated_at := now },
         ⟨l1 ++ { j0 with state := .processing, updated_at := now } :: l2,
          s.dlq⟩))

/-- Amended C4: over stores with distinct active ids, `get_pending_job`
claims the first job that passes the source's readiness test (insertion
order), where readiness counts an unparseable `next_retry_at` as ready,
and never returns a job whose `next_retry_at` parses to a future instant. -/
theorem get_pending_job_spec (s : Store) (now : ℚ)
    (hnd : (s.jobs.map Job.id).Nodup) : claimPost s now := by
  constructor
  · intro h
    refine ⟨fun j hj => ?_, gpjAux_of_find?_none h⟩
    have := List.find?_eq_none.1 h j hj
    simpa using this
  · intro j0 h
    rcases find?_eq_some_split h with ⟨l1, l2, heq, hready, hl1⟩
    have hpend : j0.state = .pending := by
      have := hready
      simp only [jobIsReady, Bool.and_eq_true, beq_iff_eq] at this
      exact this.1
    have hfut : ∀ t, j0.next_retry_at = some (.good t) → ¬ now < t := by
      intro t ht
      have := hready
      simp only [jobIsReady, ht, parse_timestamp, Bool.and_eq_true,
        Bool.not_eq_true', decide_eq_false_iff_not] at this
      exact this.2
    have hnj : ∀ x ∈ l1, x.id ≠ j0.id := nodup_split_ne (heq ▸ hnd)
    have hupf : updateFirstJob j0.id (claimUpdate now) s.jobs =
        some (l1 ++ applyUpdate j0 (claimUpdate now) :: l2) := by
      rw [heq]
      exact updateFirstJob_of_split rfl hnj
    have hup : update_job s j0.id (claimUpdate now) =
        .ok ⟨l1 ++ applyUpdate j0 (claimUpdate now) :: l2, s.dlq⟩ := by
      simp [update_job, hupf]
    rcases gpjAux_of_find?_some (fun j hj => hj) h with ⟨s', hup', hgpj⟩
    rw [hup] at hup'
    injection hup' with hs'
    subst hs'
    have hget : getJob ⟨l1 ++ applyUpdate j0 (claimUpdate now) :: l2, s.dlq⟩
        j0.id = some (applyUpdate j0 (claimUpdate now)) := by
      show List.find? _ _ = _
      exact find?_middle_of_none (fun x hx => by simp [hnj x hx])
        (by simp [applyUpdate_id])
    refine ⟨l1, l2, heq, hl1, hready, hpend, hfut, ?_⟩
    show gpjAux s now s.jobs = _
    rw [hgpj, hget]
    rfl

/-- Witness for the amended C4. -/
theorem get_pending_job_spec_witness :
    (((⟨[⟨"a", "c", .pending, 0, 3, 0, 0, none, none⟩], []⟩ : Store)).jobs.map
      Job.id).Nodup ∧
    claimPost ⟨[⟨"a", "c", .pending, 0, 3, 0, 0, none, none⟩], []⟩ 5 :=
  ⟨by simp,
    get_pending_job_spec ⟨[⟨"a", "c", .pending, 0, 3, 0, 0, none, none⟩], []⟩ 5
      (by simp)⟩

/-! ### Claim C8: retrying a job out of the DLQ -/

/-- C8 fails on the code as stated: in the reachable store where id "a"
sits both in the active list and twice in the DLQ (dead, enqueued again,
dead again, enqueued again), `retry_job "a"` removes only the first DLQ
entry, then aborts with DuplicateID from `add_job` — after the already
persisted removal — so nothing is reset or re-inserted and the id still
appears in the DLQ listing. -/
theorem dlq_retry_counterexample :
    retry_job ⟨[⟨"a", "c", .pending, 0, 3, 0, 0, none, none⟩],
        [⟨"a", "c", .dead, 2, 1, 0, 0, none, some "x"⟩,
         ⟨"a", "c", .dead, 4, 1, 0, 0, none, some "y"⟩]⟩ "a" 9 =
      (.error (.duplicateID "a"),
       ⟨[⟨"a", "c", .pending, 0, 3, 0, 0, none, none⟩],
        [⟨"a", "c", .dead, 4, 1, 0, 0, none, some "y"⟩]⟩) ∧
    getDlqJob ⟨[⟨"a", "c", .pending, 0, 3, 0, 0, none, none⟩],
        [⟨"a", "c", .dead, 4, 1, 0, 0, none, some "y"⟩]⟩ "a" ≠ none :=
  ⟨rfl, by decide⟩

/-- Postcondition of `retry_job` in the amended C8: NotFound when the id
is not in the DLQ (store untouched); otherwise the first DLQ entry with
the id is removed, reset to pending with attempts 0, no retry time and no
error, appended to the active list, and the id is gone from the DLQ
listing. -/
def dlqRetryPost (s : Store) (id : String) (now : ℚ) : Prop :=
  (getDlqJob s id = none → retry_job s id now = (.error (.notFound id), s)) ∧
  (∀ d, getDlqJob s id = some d →
    ∃ l1 l2, s.dlq = l1 ++ d :: l2 ∧ (∀ x ∈ l1, x.id ≠ id) ∧
      retry_job s id now =
        (.ok { d with
            state := .pending
            attempts := 0
            next_retry_at := none
            updated_at := now
            last_error := none },
         ⟨s.jobs ++ [{ d with
            state := .pending
            attempts := 0
            next_retry_at := none
            updated_at := now
            last_error := none }], l1 ++ l2⟩) ∧
      getDlqJob ⟨s.jobs ++ [{ d with
            state := .pending
            attempts := 0
            next_retry_at := none
            updated_at := now
            last_error := none }], l1 ++ l2⟩ id = none)

/-- Amended C8: `retry_job` behaves as claimed provided the id is absent
from the active list and occurs at most once in the DLQ (both hold in
every store the engine can reach while the disjointness invariant is
maintained). -/
theorem dlq_retry_spec (s : Store) (id : String) (now : ℚ)
    (hact : ∀ j ∈ s.jobs, j.id ≠ id)
    (huniq : (s.dlq.filter (fun x => x.id == id)).length ≤ 1) :
    dlqRetryPost s id now := by
  constructor
  · intro h
    have hpop : popFirst id s.dlq = none :=
      popFirst_eq_none.2 (fun x hx => by
        have := List.find?_eq_none.1 h x hx
        simpa using this)
    simp [retry_job, remove_from_dlq, hpop]
  · intro d hd
    rcases find?_eq_some_split hd with ⟨l1, l2, heq, hpd, hl1⟩
    have hdid : d.id = id := by simpa using hpd
    have hl1' : ∀ x ∈ l1, x.id ≠ id := fun x hx => by simpa using hl1 x hx
    have hpop : popFirst id s.dlq = some (d, l1 ++ l2) := by
      rw [heq]
      exact popFirst_of_split hdid hl1'
    have hl2 : ∀ x ∈ l2, x.id ≠ id := by
      have hf1 : l1.filter (fun x => x.id == id) = [] :=
        List.filter_eq_nil_iff.2 (fun x hx => by simp [hl1' x hx])
      rw [heq, List.filter_append, hf1, List.filter_cons] at huniq
      simp only [hpd, if_true, List.nil_append, List.length_cons] at huniq
      have : (l2.filter (fun x => x.id == id)).length = 0 := by
        omega
      have hnil := List.length_eq_zero.1 this
      intro x hx hc
      have : x ∈ l2.filter (fun x => x.id == id) :=
        List.mem_filter.2 ⟨hx, by simp [hc]⟩
      rw [hnil] at this
      simp at this
    have hc : (s.jobs.any (fun x => x.id == id)) = false :=
      List.any_eq_false.2 (fun x hx => by simp [hact x hx])
    refine ⟨l1, l2, heq, hl1', ?_, ?_⟩
    · simp [retry_job, remove_from_dlq, hpop, add_job, hdid, hc]
    · apply List.find?_eq_none.2
      intro x hx
      rcases List.mem_append.1 hx with h | h
      · simp [hl1' x h]
      · simp [hl2 x h]

/-- Witness for the amended C8 on a one-entry DLQ. -/
theorem dlq_retry_spec_witness :
    (∀ j ∈ (⟨[], [⟨"a", "c", .dead, 2, 1, 0, 0, none, some "x"⟩]⟩ : Store).jobs,
      j.id ≠ "a") ∧
    ((⟨[], [⟨"a", "c", .dead, 2, 1, 0, 0, none, some "x"⟩]⟩ : Store).dlq.filter
      (fun x => x.id == "a")).length ≤ 1 ∧
    dlqRetryPost ⟨[], [⟨"a", "c", .dead, 2, 1, 0, 0, none, some "x"⟩]⟩ "a" 9 :=
  ⟨by simp, by simp,
    dlq_retry_spec ⟨[], [⟨"a", "c", .dead, 2, 1, 0, 0, none, some "x"⟩]⟩ "a" 9
      (by simp) (by simp)⟩

/-! ### Claim C3: active set and DLQ stay disjoint -/

/-- A found job is a member carrying the searched id. -/
theorem getJob_mem {s : Store} {id : String} {j : Job}
    (h : getJob s id = some j) : j ∈ s.jobs ∧ j.id = id :=
  ⟨List.mem_of_find?_eq_some h, by simpa using List.find?_some h⟩

/-- A store with the same id sequences satisfies the invariant of another. -/
theorem storeInv_of_maps {s s' : Store}
    (hj : s'.jobs.map Job.id = s.jobs.map Job.id)
    (hd : s'.dlq.map Job.id = s.dlq.map Job.id) (h : storeInv s) :
    storeInv s' := by
  obtain ⟨h1, h2, h3⟩ := h
  refine ⟨hj ▸ h1, hd ▸ h2, ?_⟩
  intro j hjm d hdm hc
  have hj' : j.id ∈ s.jobs.map Job.id := hj ▸ List.mem_map_of_mem Job.id hjm
  have hd' : d.id ∈ s.dlq.map Job.id := hd ▸ List.mem_map_of_mem Job.id hdm
  rcases List.mem_map.1 hj' with ⟨a, ha, haid⟩
  rcases List.mem_map.1 hd' with ⟨b, hb, hbid⟩
  exact h3 a ha b hb (by rw [haid, hbid, hc])

/-- A successful `update_job` keeps the active ids and the DLQ. -/
theorem update_job_ok_inv {s s' : Store} {id : String} {u : JobUpdate}
    (h : update_job s id u = .ok s') :
    s'.jobs.map Job.id = s.jobs.map Job.id ∧ s'.dlq = s.dlq := by
  unfold update_job at h
  cases hu : updateFirstJob id u s.jobs with
  | none => rw [hu] at h; exact absurd h (by simp)
  | some js =>
    rw [hu] at h
    injection h with h
    subst h
    exact ⟨updateFirstJob_map_id hu, rfl⟩

/-- What a successful `enqueue_job` does to the store. -/
theorem enqueue_ok_inv {cfg : Config} {spec : JobSpec} {freshId : String}
    {now : ℚ} {s : Store} {j : Job} {s' : Store}
    (h : enqueue_job cfg spec freshId now s = .ok (j, s')) :
    j.id = resolveId spec.id freshId ∧ j.state = .pending ∧
      s'.jobs = s.jobs ++ [j] ∧ s'.dlq = s.dlq ∧
      ∀ x ∈ s.jobs, x.id ≠ j.id := by
  unfold enqueue_job at h
  cases hval : validate_job_data spec with
  | mk b e =>
    rw [hval] at h
    cases b with
    | false => exact absurd h (by simp)
    | true =>
      dsimp only at h
      unfold add_job at h
      by_cases hc : (s.jobs.any fun j0 =>
          j0.id == resolveId spec.id freshId) = true
      · rw [if_pos hc] at h
        exact absurd h (by simp [Except.map])
      · rw [if_neg hc] at h
        simp only [Except.map] at h
        injection h with h
        injection h with h1 h2
        subst h1 h2
        refine ⟨rfl, rfl, rfl, rfl, ?_⟩
        intro x hx
        have := List.any_eq_false.1 (Bool.not_eq_true _ ▸ hc) x hx
        simpa using this

/-- A successful `mark_job_failed` either moves the target dead into the
DLQ or rewrites the target in place. -/
theorem mark_job_failed_ok_cases {cfg : Config} {s : Store} {id : String}
    {err : Option String} {now : ℚ} {s' : Store}
    (h : mark_job_failed cfg s id err now = .ok s') :
    (∃ j dj, getJob s id = some j ∧ dj.id = j.id ∧ dj.state = .dead ∧
      s'.jobs = s.jobs.filter (fun x => x.id != id) ∧
      s'.dlq = s.dlq ++ [dj]) ∨
    (s'.jobs.map Job.id = s.jobs.map Job.id ∧ s'.dlq = s.dlq) := by
  unfold mark_job_failed at h
  cases hj : getJob s id with
  | none => rw [hj] at h; exact absurd h (by simp)
  | some j =>
    rw [hj] at h
    dsimp only at h
    by_cases hcond : ((j.attempts + 1 : ℕ) : ℤ) > j.max_retries
    · rw [if_pos hcond] at h
      injection h with h
      subst h
      refine .inl ⟨j, { j with
          state := .dead
          attempts := j.attempts + 1
          updated_at := now
          last_error := if strTruthy err then err else j.last_error },
        rfl, rfl, rfl, rfl, rfl⟩
    · rw [if_neg hcond] at h
      exact .inr (update_job_ok_inv h)

/-- The claim operation keeps the active ids and the DLQ. -/
theorem get_pending_job_store_ids (s : Store) (now : ℚ) :
    ((get_pending_job s now).2).jobs.map Job.id = s.jobs.map Job.id ∧
    ((get_pending_job s now).2).dlq = s.dlq := by
  cases h : s.jobs.find? (jobIsReady now) with
  | none =>
    have hg : get_pending_job s now = (none, s) := gpjAux_of_find?_none h
    rw [hg]
    exact ⟨rfl, rfl⟩
  | some j0 =>
    rcases gpjAux_of_find?_some (fun j hj => hj) h with ⟨s', hup, hgpj⟩
    have hg : get_pending_job s now = (getJob s' j0.id, s') := hgpj
    rw [hg]
    exact ⟨(update_job_ok_inv hup).1, (update_job_ok_inv hup).2⟩

/-- C3 fails on the code as stated: from the reachable store whose DLQ
holds the dead job "a" and whose active list is empty — disjoint, so the
invariant holds — enqueueing a fresh job with id "a" succeeds, because
`add_job` checks only the active list, and afterwards the id exists in
both collections at once. -/
theorem disjointness_broken_by_enqueue :
    storeInv ⟨[], [⟨"a", "c", .dead, 2, 1, 0, 0, none, some "x"⟩]⟩ ∧
    enqueue_job ⟨3, 2⟩ ⟨some "a", "c2", none⟩ "f" 7
        ⟨[], [⟨"a", "c", .dead, 2, 1, 0, 0, none, some "x"⟩]⟩ =
      .ok (⟨"a", "c2", .pending, 0, 3, 7, 7, none, none⟩,
        ⟨[⟨"a", "c2", .pending, 0, 3, 7, 7, none, none⟩],
         [⟨"a", "c", .dead, 2, 1, 0, 0, none, some "x"⟩]⟩) ∧
    ¬ storeInv ⟨[⟨"a", "c2", .pending, 0, 3, 7, 7, none, none⟩],
        [⟨"a", "c", .dead, 2, 1, 0, 0, none, some "x"⟩]⟩ := by
  refine ⟨?_, by rfl, ?_⟩
  · exact ⟨by simp, by simp, by simp⟩
  · rintro ⟨-, -, h3⟩
    exact h3 ⟨"a", "c2", .pending, 0, 3, 7, 7, none, none⟩ (by simp)
      ⟨"a", "c", .dead, 2, 1, 0, 0, none, some "x"⟩ (by simp) rfl

/-- Amended C3: every engine operation preserves the invariant that the
active ids are distinct, the DLQ ids are distinct, and the two id sets
are disjoint — provided an enqueue does not reuse an id sitting in the
DLQ (the code checks only the active list, so without that side condition
enqueue breaks disjointness, as the counterexample shows). -/
theorem store_disjointness_preserved (cfg : Config) (now : ℚ) (s : Store)
    (o : Op) (hinv : storeInv s) (hg : enqGuard s o) :
    storeInv (runOp cfg now s o) := by
  obtain ⟨hnj, hnd, hdisj⟩ := hinv
  cases o with
  | enqueue spec freshId =>
    dsimp only [runOp]
    cases h : enqueue_job cfg spec freshId now s with
    | error e => exact ⟨hnj, hnd, hdisj⟩
    | ok p =>
      obtain ⟨j, s2⟩ := p
      rcases enqueue_ok_inv h with ⟨hid, -, hjobs, hdlq, hnew⟩
      refine ⟨?_, ?_, ?_⟩
      · rw [hjobs, List.map_append]
        refine List.nodup_append.2 ⟨hnj, by simp, ?_⟩
        intro a ha hb
        rcases List.mem_map.1 ha with ⟨x, hx, hxa⟩
        simp only [List.map_cons, List.map_nil, List.mem_singleton] at hb
        exact hnew x hx (by rw [hxa]; exact hb)
      · rw [hdlq]; exact hnd
      · intro x hx d hd
        rw [hjobs] at hx
        rw [hdlq] at hd
        rcases List.mem_append.1 hx with h' | h'
        · exact hdisj x h' d hd
        · simp only [List.mem_singleton] at h'
          subst h'
          rw [hid]
          exact fun hc => hg d hd hc.symm
  | claim =>
    dsimp only [runOp]
    rcases get_pending_job_store_ids s now with ⟨h1, h2⟩
    exact storeInv_of_maps h1 (by rw [h2]) ⟨hnj, hnd, hdisj⟩
  | complete id =>
    dsimp only [runOp]
    cases h : mark_job_completed s id now with
    | error e => exact ⟨hnj, hnd, hdisj⟩
    | ok s' =>
      rcases update_job_ok_inv h with ⟨h1, h2⟩
      exact storeInv_of_maps h1 (by rw [h2]) ⟨hnj, hnd, hdisj⟩
  | fail id err =>
    dsimp only [runOp]
    cases h : mark_job_failed cfg s id err now with
    | error e => exact ⟨hnj, hnd, hdisj⟩
    | ok s' =>
      rcases mark_job_failed_ok_cases h with
        ⟨j, dj, hgj, hdjid, -, hjobs, hdlq⟩ | ⟨h1, h2⟩
      · rcases getJob_mem hgj with ⟨hjm, hjid⟩
        have hidnd : dj.id ∉ s.dlq.map Job.id := by
          intro hc
          rcases List.mem_map.1 hc with ⟨b, hb, hbid⟩
          exact hdisj j hjm b hb (by rw [hbid, hdjid])
        refine ⟨?_, ?_, ?_⟩
        · rw [hjobs]
          exact ((List.filter_sublist s.jobs).map Job.id).nodup hnj
        · rw [hdlq, List.map_append]
          refine List.nodup_append.2 ⟨hnd, by simp, ?_⟩
          intro a ha hb
          simp only [List.map_cons, List.map_nil, List.mem_singleton] at hb
          exact hidnd (hb ▸ ha)
        · intro x hx d hd
          rw [hjobs] at hx
          rw [hdlq] at hd
          have hxmem := (List.mem_filter.1 hx).1
          have hxid : x.id ≠ id := by
            have := (List.mem_filter.1 hx).2
            simpa using this
          rcases List.mem_append.1 hd with h' | h'
          · exact hdisj x hxmem d h'
          · simp only [List.mem_singleton] at h'
            subst h'
            rw [hdjid, hjid]
            exact hxid
      · exact storeInv_of_maps h1 (by rw [h2]) ⟨hnj, hnd, hdisj⟩
  | retry id =>
    dsimp only [runOp]
    cases hpop : popFirst id s.dlq with
    | none =>
      simp only [retry_job, remove_from_dlq, hpop, Option.map_none']
      exact ⟨hnj, hnd, hdisj⟩
    | some p =>
      obtain ⟨d, rest⟩ := p
      rcases popFirst_some_split hpop with ⟨l1, l2, hdlqeq, hrest, hdid, hl1⟩
      subst hrest
      rw [hdlqeq, List.map_append, List.map_cons] at hnd
      have hcons := List.nodup_cons.1
        ((@List.nodup_middle _ d.id (l1.map Job.id) (l2.map Job.id)).1 hnd)
      have hrestnd : ((l1 ++ l2).map Job.id).Nodup := by
        rw [List.map_append]
        exact hcons.2
      have hidrest : id ∉ (l1 ++ l2).map Job.id := by
        rw [List.map_append]
        intro hc
        refine hcons.1 ?_
        rw [hdid]
        exact hc
      have hsub : ∀ x ∈ l1 ++ l2, x ∈ s.dlq := by
        intro x hx
        rw [hdlqeq]
        rcases List.mem_append.1 hx with h' | h'
        · exact List.mem_append.2 (.inl h')
        · exact List.mem_append.2 (.inr (List.mem_cons_of_mem d h'))
      simp only [retry_job, remove_from_dlq, hpop, Option.map_some']
      by_cases hc : (s.jobs.any fun x => x.id == d.id) = true
      · rw [add_job, if_pos (by simpa [hdid] using hc)]
        refine ⟨hnj, hrestnd, ?_⟩
        intro x hx b hb
        exact hdisj x hx b (hsub b hb)
      · rw [add_job, if_neg (by simpa [hdid] using hc)]
        have hjn : ∀ x ∈ s.jobs, x.id ≠ id := by
          intro x hx
          have hne := List.any_eq_false.1 (Bool.not_eq_true _ ▸ hc) x hx
          intro hcc
          refine hne ?_
          rw [hcc, hdid]
          exact beq_self_eq_true id
        refine ⟨?_, hrestnd, ?_⟩
        · rw [List.map_append]
          refine List.nodup_append.2 ⟨hnj, by simp, ?_⟩
          intro a ha hb
          simp only [List.map_cons, List.map_nil, List.mem_singleton] at hb
          rcases List.mem_map.1 ha with ⟨x, hx, hxa⟩
          refine hjn x hx ?_
          rw [hxa, hb]
          exact hdid
        · intro x hx b hb
          rcases List.mem_append.1 hx with h' | h'
          · exact hdisj x h' b (hsub b hb)
          · simp only [List.mem_singleton] at h'
            subst h'
            show d.id ≠ b.id
            rw [hdid]
            exact fun hcc => hidrest (hcc ▸ List.mem_map_of_mem Job.id hb)

/-- Witness for the amended C3: the claim operation on a two-sided store. -/
theorem store_disjointness_preserved_witness :
    storeInv ⟨[⟨"a", "c", .pending, 0, 3, 0, 0, none, none⟩],
        [⟨"b", "c", .dead, 2, 1, 0, 0, none, some "x"⟩]⟩ ∧
    enqGuard ⟨[⟨"a", "c", .pending, 0, 3, 0, 0, none, none⟩],
        [⟨"b", "c", .dead, 2, 1, 0, 0, none, some "x"⟩]⟩ .claim ∧
    storeInv (runOp ⟨3, 2⟩ 5
      ⟨[⟨"a", "c", .pending, 0, 3, 0, 0, none, none⟩],
       [⟨"b", "c", .dead, 2, 1, 0, 0, none, some "x"⟩]⟩ .claim) :=
  ⟨⟨by simp, by simp, by simp⟩, trivial,
    store_disjointness_preserved ⟨3, 2⟩ 5
      ⟨[⟨"a", "c", .pending, 0, 3, 0, 0, none, none⟩],
       [⟨"b", "c", .dead, 2, 1, 0, 0, none, some "x"⟩]⟩ .claim
      ⟨by simp, by simp, by simp⟩ trivial⟩

/-! ### Claim C6: the legal state transitions -/

theorem find?_filter_ne {l : List Job} {x id : String} (hx : x ≠ id) :
    (l.filter (fun a => a.id != id)).find? (fun a => a.id == x) =
      l.find? (fun a => a.id == x) := by
  induction l with
  | nil => rfl
  | cons b l ih =>
    by_cases hb : b.id = id
    · rw [List.filter_cons, if_neg (by simp [hb])]
      rw [List.find?_cons_of_neg _ (by simp [hb, Ne.symm hx])]
      exact ih
    · rw [List.filter_cons, if_pos (by simp [hb])]
      by_cases hbx : b.id = x
      · rw [List.find?_cons_of_pos _ (by simp [hbx]),
          List.find?_cons_of_pos _ (by simp [hbx])]
      · rw [List.find?_cons_of_neg _ (by simp [hbx]),
          List.find?_cons_of_neg _ (by simp [hbx])]
        exact ih

theorem find?_append_single_neg {l : List Job} {b : Job} {p : Job → Bool}
    (hb : p b = false) : (l ++ [b]).find? p = l.find? p := by
  rw [List.find?_append]
  cases h : l.find? p with
  | none => simp [hb]
  | some a => rfl

/-- What a successful `update_job` does to every lookup. -/
theorem update_job_state_change {s s' : Store} {id0 : String} {u : JobUpdate}
    (h : update_job s id0 u = .ok s') :
    s'.dlq = s.dlq ∧
    ∃ y, getJob s id0 = some y ∧ getJob s' id0 = some (applyUpdate y u) ∧
      ∀ x, x ≠ id0 → getJob s' x = getJob s x := by
  unfold update_job at h
  cases hu : updateFirstJob id0 u s.jobs with
  | none => rw [hu] at h; exact absurd h (by simp)
  | some js =>
    rw [hu] at h
    injection h with h
    subst h
    rcases updateFirstJob_some_split hu with ⟨m1, y, m2, heq, heq', hyid, hm1⟩
    refine ⟨rfl, y, ?_, ?_, ?_⟩
    · show List.find? _ s.jobs = _
      rw [heq]
      exact find?_middle_of_none (fun a ha => by simp [hm1 a ha])
        (by simp [hyid])
    · show List.find? _ js = _
      rw [heq']
      exact find?_middle_of_none (fun a ha => by simp [hm1 a ha])
        (by simp [applyUpdate_id, hyid])
    · intro x hx
      show List.find? _ js = List.find? _ s.jobs
      rw [heq, heq']
      refine find?_middle_congr ?_ ?_
      · exact beq_eq_false_iff_ne.2 (by
          rw [applyUpdate_id, hyid]; exact Ne.symm hx)
      · exact beq_eq_false_iff_ne.2 (by rw [hyid]; exact Ne.symm hx)

/-- Reading `totalState` through an active hit. -/
theorem totalState_eq_active {s : Store} {x : String} {j : Job}
    (h : getJob s x = some j) : totalState s x = some j.state := by
  unfold totalState
  rw [h]

/-- Reading `totalState` through an active miss. -/
theorem totalState_eq_dlq {s : Store} {x : String} (h : getJob s x = none) :
    totalState s x = (getDlqJob s x).map Job.state := by
  unfold totalState
  rw [h]

/-- Stores that look the same at an id have the same observed state. -/
theorem totalState_congr {s s' : Store} {x : String}
    (h1 : getJob s' x = getJob s x) (h2 : s'.dlq = s.dlq) :
    totalState s' x = totalState s x := by
  unfold totalState getDlqJob
  rw [h1, h2]

/-- One-step effect of an enqueue on every id's observed state. -/
theorem step_enqueue {cfg : Config} {now : ℚ} {spec : JobSpec}
    {freshId : String} {s : Store}
    (hg : ∀ d ∈ s.dlq, d.id ≠ resolveId spec.id freshId) :
    ∀ x, totalState (runOp cfg now s (.enqueue spec freshId)) x =
        totalState s x ∨
      (totalState s x = none ∧
        totalState (runOp cfg now s (.enqueue spec freshId)) x =
          some .pending) := by
  intro x
  cases h : enqueue_job cfg spec freshId now s with
  | error e =>
    have hrun : runOp cfg now s (.enqueue spec freshId) = s := by
      dsimp only [runOp]
      rw [h]
    rw [hrun]
    exact .inl rfl
  | ok p =>
    obtain ⟨j, s2⟩ := p
    have hrun : runOp cfg now s (.enqueue spec freshId) = s2 := by
      dsimp only [runOp]
      rw [h]
    rw [hrun]
    rcases enqueue_ok_inv h with ⟨hid, hst, hjobs, hdlq, hnew⟩
    by_cases hactive : getJob s x = none
    · by_cases hjx : j.id = x
      · refine .inr ⟨?_, ?_⟩
        · have hdnone : getDlqJob s x = none := by
            apply List.find?_eq_none.2
            intro d hd
            have hne := hg d hd
            rw [← hid, hjx] at hne
            simp [hne]
          rw [totalState_eq_dlq hactive, hdnone]
          rfl
        · have hfind : getJob s2 x = some j := by
            unfold getJob
            rw [hjobs]
            exact @find?_middle_of_none _ s.jobs [] j
              (fun a ha => beq_eq_false_iff_ne.2
                (fun hc => hnew a ha (by rw [hc, hjx])))
              (by simp [hjx])
          rw [totalState_eq_active hfind, hst]
      · refine .inl ?_
        refine totalState_congr ?_ hdlq
        unfold getJob
        rw [hjobs, find?_append_single_neg (by simp [hjx])]
    · rcases Option.ne_none_iff_exists'.1 hactive with ⟨y, hy⟩
      refine .inl ?_
      refine totalState_congr ?_ hdlq
      unfold getJob
      rw [hjobs, List.find?_append]
      unfold getJob at hy
      rw [hy]
      rfl

/-- One-step effect of the claim operation on every id's observed state. -/
theorem step_claim {cfg : Config} {now : ℚ} {s : Store}
    (hnd : (s.jobs.map Job.id).Nodup) :
    ∀ x, totalState (runOp cfg now s .claim) x = totalState s x ∨
      (totalState s x = some .pending ∧
        totalState (runOp cfg now s .claim) x = some .processing) := by
  intro x
  cases h : s.jobs.find? (jobIsReady now) with
  | none =>
    have hrun : runOp cfg now s .claim = s := by
      dsimp only [runOp]
      rw [show get_pending_job s now = (none, s) from gpjAux_of_find?_none h]
    rw [hrun]
    exact .inl rfl
  | some j0 =>
    rcases gpjAux_of_find?_some (fun j hj => hj) h with ⟨s', hup, hgpj⟩
    have hrun : runOp cfg now s .claim = s' := by
      dsimp only [runOp]
      rw [show get_pending_job s now = (getJob s' j0.id, s') from hgpj]
    rw [hrun]
    rcases update_job_state_change hup with ⟨hdlq, y, hy, hy', hother⟩
    have hj0mem : j0 ∈ s.jobs := List.mem_of_find?_eq_some h
    have hymem : y ∈ s.jobs ∧ y.id = j0.id := getJob_mem hy
    have hyj0 : y = j0 :=
      List.inj_on_of_nodup_map hnd hymem.1 hj0mem hymem.2
    have hpend : j0.state = .pending := by
      have := List.find?_some h
      simp only [jobIsReady, Bool.and_eq_true, beq_iff_eq] at this
      exact this.1
    by_cases hx : x = j0.id
    · subst hx
      refine .inr ⟨?_, ?_⟩
      · rw [totalState_eq_active hy, hyj0, hpend]
      · rw [totalState_eq_active hy']
        rfl
    · exact .inl (totalState_congr (hother x hx) hdlq)

/-- One-step effect of a completion report on every id's observed state. -/
theorem step_complete {now : ℚ} {cfg : Config} {s : Store} {id : String}
    (hok : ∃ j, getJob s id = some j ∧ j.state = .processing) :
    ∀ x, totalState (runOp cfg now s (.complete id)) x = totalState s x ∨
      (totalState s x = some .processing ∧
        totalState (runOp cfg now s (.complete id)) x = some .completed) := by
  intro x
  rcases hok with ⟨j, hj, hst⟩
  cases h : mark_job_completed s id now with
  | error e =>
    rcases update_job_found ⟨some .completed, none, none, some now, none⟩ hj
      with ⟨l1, l2, -, -, -, hok', -⟩
    rw [show mark_job_completed s id now =
      update_job s id ⟨some .completed, none, none, some now, none⟩ from rfl]
      at h
    rw [hok'] at h
    exact absurd h (by simp)
  | ok s' =>
    have hrun : runOp cfg now s (.complete id) = s' := by
      dsimp only [runOp]
      rw [h]
    rw [hrun]
    rcases update_job_state_change h with ⟨hdlq, y, hy, hy', hother⟩
    by_cases hx : x = id
    · subst hx
      refine .inr ⟨?_, ?_⟩
      · have hyj : y = j := by
          rw [hy] at hj
          injection hj
        rw [totalState_eq_active hy, hyj, hst]
      · rw [totalState_eq_active hy']
        rfl
    · exact .inl (totalState_congr (hother x hx) hdlq)

/-- Dropping a non-matching middle element does not change a search. -/
theorem find?_middle_drop {p : Job → Bool} {l1 l2 : List Job} {d : Job}
    (hd : p d = false) :
    (l1 ++ l2).find? p = (l1 ++ d :: l2).find? p := by
  rw [List.find?_append, List.find?_append,
    List.find?_cons_of_neg _ (by simp [hd])]

/-- Stores with the same two lookups at an id have the same observed
state there. -/
theorem totalState_congr_lookup {s s' : Store} {x : String}
    (h1 : getJob s' x = getJob s x) (h2 : getDlqJob s' x = getDlqJob s x) :
    totalState s' x = totalState s x := by
  unfold totalState
  rw [h1, h2]

/-- One-step effect of a failure report on every id's observed state. -/
theorem step_fail {cfg : Config} {now : ℚ} {s : Store} {id : String}
    {err : Option String}
    (hok : ∃ j, getJob s id = some j ∧ j.state = .processing)
    (hdisj : ∀ a ∈ s.jobs, ∀ d ∈ s.dlq, a.id ≠ d.id) :
    ∀ x, totalState (runOp cfg now s (.fail id err)) x = totalState s x ∨
      (totalState s x = some .processing ∧
        (totalState (runOp cfg now s (.fail id err)) x = some .dead ∨
         totalState (runOp cfg now s (.fail id err)) x = some .pending)) := by
  intro x
  rcases hok with ⟨j, hj, hst⟩
  rcases getJob_mem hj with ⟨hjmem, hjid⟩
  by_cases hcond : ((j.attempts + 1 : ℕ) : ℤ) > j.max_retries
  · obtain ⟨dj, hdj⟩ : ∃ dj : Job, dj = { j with
        state := .dead
        attempts := j.attempts + 1
        updated_at := now
        last_error := if strTruthy err then err else j.last_error } := ⟨_, rfl⟩
    have hred : mark_job_failed cfg s id err now =
        .ok ⟨s.jobs.filter (fun a => a.id != id), s.dlq ++ [dj]⟩ := by
      simp only [mark_job_failed, hj]
      rw [if_pos hcond, hdj]
      rfl
    have hrun : runOp cfg now s (.fail id err) =
        ⟨s.jobs.filter (fun a => a.id != id), s.dlq ++ [dj]⟩ := by
      dsimp only [runOp]
      rw [hred]
    rw [hrun]
    by_cases hx : x = id
    · subst hx
      refine .inr ⟨?_, .inl ?_⟩
      · rw [totalState_eq_active hj, hst]
      · rw [totalState_eq_dlq (getJob_after_filter s.jobs (s.dlq ++ [dj]) x)]
        have hdfind : getDlqJob
            ⟨s.jobs.filter (fun a => a.id != x), s.dlq ++ [dj]⟩ x =
            some dj := by
          show List.find? _ (s.dlq ++ [dj]) = _
          refine @find?_middle_of_none _ s.dlq [] dj ?_ (by rw [hdj]; simp [hjid])
          intro d hd
          exact beq_eq_false_iff_ne.2 (Ne.symm (hjid ▸ hdisj j hjmem d hd))
        rw [hdfind, Option.map_some', hdj]
    · refine .inl (totalState_congr_lookup ?_ ?_)
      · show List.find? _ _ = List.find? _ _
        exact find?_filter_ne hx
      · show List.find? _ (s.dlq ++ [dj]) = List.find? _ s.dlq
        refine find?_append_single_neg ?_
        refine beq_eq_false_iff_ne.2 ?_
        rw [hdj]
        show j.id ≠ x
        rw [hjid]
        exact Ne.symm hx
  · have hred : mark_job_failed cfg s id err now = update_job s id
        ⟨some .pending, some (j.attempts + 1),
          some (some (.good (now +
            calculate_backoff_delay (j.attempts + 1) cfg.backoff_base))),
          some now, some err⟩ := by
      simp only [mark_job_failed, hj]
      rw [if_neg hcond]
    rcases update_job_found
        (⟨some .pending, some (j.attempts + 1),
          some (some (.good (now +
            calculate_backoff_delay (j.attempts + 1) cfg.backoff_base))),
          some now, some err⟩ : JobUpdate) hj with ⟨l1, l2, -, -, -, hok', -⟩
    have hrun : runOp cfg now s (.fail id err) =
        ⟨l1 ++ applyUpdate j
          ⟨some .pending, some (j.attempts + 1),
            some (some (.good (now +
              calculate_backoff_delay (j.attempts + 1) cfg.backoff_base))),
            some now, some err⟩ :: l2, s.dlq⟩ := by
      dsimp only [runOp]
      rw [hred, hok']
    rw [hrun]
    rcases update_job_state_change hok' with ⟨hdlq, y, hy, hy', hother⟩
    have hyj : y = j := by
      rw [hy] at hj
      injection hj
    have hs'eq : update_job s id
        ⟨some .pending, some (j.attempts + 1),
          some (some (.good (now +
            calculate_backoff_delay (j.attempts + 1) cfg.backoff_base))),
          some now, some err⟩ = .ok ⟨l1 ++ applyUpdate j
          ⟨some .pending, some (j.attempts + 1),
            some (some (.good (now +
              calculate_backoff_delay (j.attempts + 1) cfg.backoff_base))),
            some now, some err⟩ :: l2, s.dlq⟩ := hok'
    by_cases hx : x = id
    · subst hx
      refine .inr ⟨?_, .inr ?_⟩
      · rw [totalState_eq_active hj, hst]
      · rw [totalState_eq_active hy']
        rw [hyj]
        rfl
    · exact .inl (totalState_congr_lookup (hother x hx) rfl)

/-- One-step effect of a DLQ retry on every id's observed state. -/
theorem step_retry {cfg : Config} {now : ℚ} {s : Store} {id : String}
    (hdead : dlqAllDead s) :
    ∀ x, totalState (runOp cfg now s (.retry id)) x = totalState s x ∨
      (x = id ∧ totalState s x = some .dead ∧
        totalState (runOp cfg now s (.retry id)) x = some .pending) := by
  intro x
  cases hpop : popFirst id s.dlq with
  | none =>
    have hrun : runOp cfg now s (.retry id) = s := by
      dsimp only [runOp]
      simp only [retry_job, remove_from_dlq, hpop, Option.map_none']
    rw [hrun]
    exact .inl rfl
  | some p =>
    obtain ⟨d, rest⟩ := p
    rcases popFirst_some_split hpop with ⟨l1, l2, hdlqeq, hrest, hdid, hl1⟩
    subst hrest
    by_cases hc : (s.jobs.any fun a => a.id == d.id) = true
    · have hrun : runOp cfg now s (.retry id) = ⟨s.jobs, l1 ++ l2⟩ := by
        dsimp only [runOp]
        simp only [retry_job, remove_from_dlq, hpop, Option.map_some']
        rw [add_job, if_pos hc]

      rw [hrun]
      by_cases hact : getJob s x = none
      · have hxid : x ≠ id := by
          intro hxx
          subst hxx
          rcases List.any_eq_true.1 hc with ⟨y, hy, hyb⟩
          have : getJob s x ≠ none := by
            unfold getJob
            intro hfn
            exact absurd (by rw [hdid] at hyb; exact hyb)
              (by simpa using List.find?_eq_none.1 hfn y hy)
          exact this hact
        refine .inl (totalState_congr_lookup rfl ?_)
        show List.find? _ (l1 ++ l2) = List.find? _ s.dlq
        rw [hdlqeq]
        exact find?_middle_drop
          (beq_eq_false_iff_ne.2 (by rw [hdid]; exact Ne.symm hxid))
      · rcases Option.ne_none_iff_exists'.1 hact with ⟨y, hy⟩
        refine .inl ?_
        rw [totalState_eq_active hy,
          totalState_eq_active (show getJob ⟨s.jobs, l1 ++ l2⟩ x = some y
            from hy)]
    · have hrun : runOp cfg now s (.retry id) =
          ⟨s.jobs ++ [{ d with
            state := .pending
            attempts := 0
            next_retry_at := none
            updated_at := now
            last_error := none }], l1 ++ l2⟩ := by
        dsimp only [runOp]
        simp only [retry_job, remove_from_dlq, hpop, Option.map_some']
        rw [add_job, if_neg (by simpa using hc)]
      rw [hrun]
      have hjnone : getJob s id = none := by
        apply List.find?_eq_none.2
        intro a ha
        have := List.any_eq_false.1 (Bool.not_eq_true _ ▸ hc) a ha
        rw [hdid] at this
        simpa using this
      by_cases hx : x = id
      · subst hx
        refine .inr ⟨rfl, ?_, ?_⟩
        · have hdfind : getDlqJob s x = some d := by
            show List.find? _ s.dlq = _
            rw [hdlqeq]
            exact find?_middle_of_none
              (fun a ha => beq_eq_false_iff_ne.2 (hl1 a ha)) (by simp [hdid])
          rw [totalState_eq_dlq hjnone, hdfind]
          have hdmem : d ∈ s.dlq := by
            rw [hdlqeq]
            exact List.mem_append.2 (Or.inr (List.mem_cons_self d l2))
          rw [Option.map_some', hdead d hdmem]
        · have hfind : getJob ⟨s.jobs ++ [{ d with
              state := .pending
              attempts := 0
              next_retry_at := none
              updated_at := now
              last_error := none }], l1 ++ l2⟩ x = some { d with
              state := .pending
              attempts := 0
              next_retry_at := none
              updated_at := now
              last_error := none } := by
            show List.find? _ (s.jobs ++ [_]) = _
            refine @find?_middle_of_none _ s.jobs [] _ ?_ (by simp [hdid])
            intro a ha
            have hne := List.any_eq_false.1 (Bool.not_eq_true _ ▸ hc) a ha
            refine beq_eq_false_iff_ne.2 ?_
            rw [← hdid]
            simpa using hne
          rw [totalState_eq_active hfind]
      · refine .inl (totalState_congr_lookup ?_ ?_)
        · show List.find? _ (s.jobs ++ [_]) = List.find? _ s.jobs
          refine find?_append_single_neg ?_
          exact beq_eq_false_iff_ne.2 (by
            show ({ d with
              state := .pending
              attempts := 0
              next_retry_at := none
              updated_at := now
              last_error := none } : Job).id ≠ x
            show d.id ≠ x
            rw [hdid]
            exact Ne.symm hx)
        · show List.find? _ (l1 ++ l2) = List.find? _ s.dlq
          rw [hdlqeq]
          exact find?_middle_drop
            (beq_eq_false_iff_ne.2 (by rw [hdid]; exact Ne.symm hx))

/-- The four transition rules C6 asserts, for one operation at one id. -/
def legalStep (cfg : Config) (now : ℚ) (s : Store) (o : Op) : Prop :=
  ∀ x,
    (totalState s x = some .pending →
      totalState (runOp cfg now s o) x ≠ some .dead) ∧
    (totalState s x = some .completed →
      totalState (runOp cfg now s o) x ≠ some .pending) ∧
    (totalState s x = some .dead →
      totalState (runOp cfg now s o) x = some .pending → o = .retry x) ∧
    (totalState (runOp cfg now s o) x = some .dead →
      totalState s x = some .dead ∨ totalState s x = some .processing)

/-- An operation that does not change the observed state of an id obeys
all four rules there. -/
theorem legalStep_of_unchanged {cfg : Config} {now : ℚ} {s : Store} {o : Op}
    {x : String} (h : totalState (runOp cfg now s o) x = totalState s x) :
    (totalState s x = some .pending →
      totalState (runOp cfg now s o) x ≠ some .dead) ∧
    (totalState s x = some .completed →
      totalState (runOp cfg now s o) x ≠ some .pending) ∧
    (totalState s x = some .dead →
      totalState (runOp cfg now s o) x = some .pending → o = .retry x) ∧
    (totalState (runOp cfg now s o) x = some .dead →
      totalState s x = some .dead ∨ totalState s x = some .processing) := by
  refine ⟨?_, ?_, ?_, ?_⟩
  · intro hb
    rw [h, hb]
    simp
  · intro hb
    rw [h, hb]
    simp
  · intro hb hafter
    rw [h, hb] at hafter
    simp at hafter
  · intro hafter
    rw [h] at hafter
    exact .inl hafter

/-- C6 fails on the code in two ways, both exhibited here on reachable
stores.  First, `mark_job_failed` has no guard on the current state, so
invoking it on a Pending job whose retry budget is exhausted (reachable:
enqueue with max_retries=0 and report a failure without claiming) moves
the job straight from Pending to Dead.  Second, `add_job` checks only the
active list, so enqueueing an id that sits dead in the DLQ takes that
id's observed state from Dead back to Pending without any DLQ retry. -/
theorem pending_to_dead_counterexample :
    (totalState ⟨[⟨"a", "c", .pending, 0, 0, 0, 0, none, none⟩], []⟩ "a" =
      some .pending ∧
    mark_job_failed ⟨3, 2⟩ ⟨[⟨"a", "c", .pending, 0, 0, 0, 0, none, none⟩], []⟩
        "a" (some "e") 4 =
      .ok ⟨[], [⟨"a", "c", .dead, 1, 0, 0, 4, none, some "e"⟩]⟩ ∧
    totalState ⟨[], [⟨"a", "c", .dead, 1, 0, 0, 4, none, some "e"⟩]⟩ "a" =
      some .dead) ∧
    (totalState ⟨[], [⟨"a", "c", .dead, 2, 1, 0, 0, none, some "x"⟩]⟩ "a" =
      some .dead ∧
    runOp ⟨3, 2⟩ 7 ⟨[], [⟨"a", "c", .dead, 2, 1, 0, 0, none, some "x"⟩]⟩
        (.enqueue ⟨some "a", "c2", none⟩ "f") =
      ⟨[⟨"a", "c2", .pending, 0, 3, 7, 7, none, none⟩],
       [⟨"a", "c", .dead, 2, 1, 0, 0, none, some "x"⟩]⟩ ∧
    totalState ⟨[⟨"a", "c2", .pending, 0, 3, 7, 7, none, none⟩],
        [⟨"a", "c", .dead, 2, 1, 0, 0, none, some "x"⟩]⟩ "a" =
      some .pending) :=
  ⟨⟨rfl, rfl, rfl⟩, ⟨rfl, by rfl, rfl⟩⟩

/-- Amended C6: over well-formed stores (distinct, disjoint ids; every DLQ
entry dead) and with the operations guarded as the system drives them —
the completion/failure reports restricted to the Processing job the
reporting worker holds, which is how the worker loop invokes them, and
enqueue not given an id sitting in the DLQ — every operation obeys the
claimed state machine: no job moves from Pending to Dead in one step, no
Completed or Dead job returns to Pending except through the DLQ-retry
operation, and only a Processing job may become Dead.  Both guards are
forced by the counterexample above. -/
theorem state_machine_guarded (cfg : Config) (now : ℚ) (s : Store) (o : Op)
    (hinv : storeInv s) (hdead : dlqAllDead s) (hok : opOK s o) :
    legalStep cfg now s o := by
  obtain ⟨hnj, hnd, hdisj⟩ := hinv
  intro x
  cases o with
  | enqueue spec freshId =>
    rcases step_enqueue hok x with h | ⟨h1, h2⟩
    · exact legalStep_of_unchanged h
    · refine ⟨?_, ?_, ?_, ?_⟩
      · intro hb
        rw [hb] at h1
        simp at h1
      · intro hb
        rw [hb] at h1
        simp at h1
      · intro hb
        rw [hb] at h1
        simp at h1
      · intro hafter
        rw [h2] at hafter
        simp at hafter
  | claim =>
    rcases @step_claim cfg now s hnj x with h | ⟨h1, h2⟩
    · exact legalStep_of_unchanged h
    · refine ⟨?_, ?_, ?_, ?_⟩
      · intro hb
        rw [h2]
        simp
      · intro hb
        rw [hb] at h1
        simp at h1
      · intro hb
        rw [hb] at h1
        simp at h1
      · intro hafter
        rw [h2] at hafter
        simp at hafter
  | complete id =>
    rcases @step_complete now cfg s id hok x with h | ⟨h1, h2⟩
    · exact legalStep_of_unchanged h
    · refine ⟨?_, ?_, ?_, ?_⟩
      · intro hb
        rw [hb] at h1
        simp at h1
      · intro hb
        rw [hb] at h1
        simp at h1
      · intro hb
        rw [hb] at h1
        simp at h1
      · intro hafter
        rw [h2] at hafter
        simp at hafter
  | fail id err =>
    rcases @step_fail cfg now s id err hok hdisj x with h | ⟨h1, h2⟩
    · exact legalStep_of_unchanged h
    · refine ⟨?_, ?_, ?_, ?_⟩
      · intro hb
        rw [hb] at h1
        simp at h1
      · intro hb
        rw [hb] at h1
        simp at h1
      · intro hb
        rw [hb] at h1
        simp at h1
      · intro hafter
        exact .inr h1
  | retry id =>
    rcases @step_retry cfg now s id hdead x with
      h | ⟨hxid, h1, h2⟩
    · exact legalStep_of_unchanged h
    · refine ⟨?_, ?_, ?_, ?_⟩
      · intro hb
        rw [hb] at h1
        simp at h1
      · intro hb
        rw [hb] at h1
        simp at h1
      · intro hb hafter
        rw [hxid]
      · intro hafter
        rw [h2] at hafter
        simp at hafter

/-- Witness for the amended C6: the claim operation on a store holding a
pending job and a dead DLQ entry. -/
theorem state_machine_guarded_witness :
    storeInv ⟨[⟨"a", "c", .pending, 0, 3, 0, 0, none, none⟩],
        [⟨"b", "c", .dead, 2, 1, 0, 0, none, some "x"⟩]⟩ ∧
    dlqAllDead ⟨[⟨"a", "c", .pending, 0, 3, 0, 0, none, none⟩],
        [⟨"b", "c", .dead, 2, 1, 0, 0, none, some "x"⟩]⟩ ∧
    opOK ⟨[⟨"a", "c", .pending, 0, 3, 0, 0, none, none⟩],
        [⟨"b", "c", .dead, 2, 1, 0, 0, none, some "x"⟩]⟩ .claim ∧
    legalStep ⟨3, 2⟩ 5
      ⟨[⟨"a", "c", .pending, 0, 3, 0, 0, none, none⟩],
       [⟨"b", "c", .dead, 2, 1, 0, 0, none, some "x"⟩]⟩ .claim :=
  ⟨⟨by simp, by simp, by simp⟩, by intro d hd; simp at hd; rw [hd], trivial,
    state_machine_guarded ⟨3, 2⟩ 5
      ⟨[⟨"a", "c", .pending, 0, 3, 0, 0, none, none⟩],
       [⟨"b", "c", .dead, 2, 1, 0, 0, none, some "x"⟩]⟩ .claim
      ⟨by simp, by simp, by simp⟩ (by intro d hd; simp at hd; rw [hd]) trivial⟩

end Queuectl
